import Mathlib

/-
Verification of the Flash Neiga exam trainer against its specification.

The repository ships only the React frontend; the FastAPI backend is not in
the sources.  The client-side Exam Zone (pages variant of ExamDetails.js,
`src/unnamed/part_001`) contains the weighted sampling algorithm, the local
start / answer handlers and the local error-weight table, and the pages
Exam.js / ExamDetails.js / Stats.js contain the answer-recording and scoring
displays.  All of those are embedded below as executable Lean functions,
translated statement by statement from the JavaScript source.

Randomness is modelled by passing the stream of values produced by
Math.random() as an explicit list of rationals; a value u of that stream is
valid when 0 <= u < 1.  JavaScript objects holding the error weights are
modelled as association lists from string keys to natural numbers, and the
JavaScript "or" fallback on possibly-missing string fields is modelled on
Option String with the empty string counted as falsy.
-/

namespace FlashNeiga

/-- Answer option of a question as held by the client: id, text and the
is-correct flag that the gov.il data set carries on every option. -/
structure QOption where
  oid : String
  otext : String
  is_correct : Bool
deriving DecidableEq

/-- Question object as held by the Exam Zone client code.  The id fields are
optional because the code probes several possible field names
(q.id, q.question_id, q._id) before falling back to the text. -/
structure Question where
  qid : Option String
  question_id : Option String
  mid : Option String
  qtext : String
  options : List QOption
deriving DecidableEq

/-- JavaScript string fallback a or b : the left value wins unless it is
missing or the empty string (both falsy in JavaScript). -/
def strOr : Option String → Option String → Option String
  | some s, b => if s = "" then b else some s
  | none, b => b

/-- Identifier used to key the error-weight table, from
"q.id or q.question_id or q._id or q.text" in the source. -/
def questionKey (q : Question) : String :=
  (strOr q.qid (strOr q.question_id q.mid)).getD q.qtext

/-- Error-weight table: a JavaScript object mapping question key to a count,
modelled as an association list. -/
abbrev WeightTable := List (String × Nat)

/-- Read of "weights[id] or 0" from the source: a missing key counts as 0. -/
def lookupW (W : WeightTable) (k : String) : Nat :=
  match W with
  | [] => 0
  | (k₀, v₀) :: rest => if k₀ = k then v₀ else lookupW rest k

/-- Write of "weights[id] = v" on a JavaScript object: update the entry in
place if the key is present, otherwise append it. -/
def setW (W : WeightTable) (k : String) (v : Nat) : WeightTable :=
  match W with
  | [] => [(k, v)]
  | (k₀, v₀) :: rest => if k₀ = k then (k, v) :: rest else (k₀, v₀) :: setW rest k v

/-- Item of the sampling pool paired with its sampling weight, from
"pool.map(q => ({ q, w }))" in weightedSample. -/
structure WItem where
  q : Question
  w : Nat
deriving DecidableEq

/-- Sampling weight of a question: "Math.min(10, (weights[id] || 0) + 1)"
(base weight 1, cap 10) in weightedSample. -/
def sampleWeight (W : WeightTable) (q : Question) : Nat :=
  min 10 (lookupW W (questionKey q) + 1)

/-- The weighted item list built by weightedSample from the pool. -/
def mkItems (W : WeightTable) (pool : List Question) : List WItem :=
  pool.map (fun q => ⟨q, sampleWeight W q⟩)

/-- Total weight of the not-yet-selected items:
"items.reduce((s, it) => s + (used.has(it.q) ? 0 : it.w), 0)". -/
def sumUnused (items : List WItem) (used : List Question) : Nat :=
  items.foldl (fun s it => s + (if it.q ∈ used then 0 else it.w)) 0

/-- One walk of the inner for-loop of weightedSample: skip already selected
items, select the first item whose weight band contains the draw r,
otherwise subtract its weight from r and continue. -/
def selectStep (r : ℚ) (used : List Question) : List WItem → Option Question
  | [] => none
  | it :: rest =>
    if it.q ∈ used then selectStep r used rest
    else if r < (it.w : ℚ) then some it.q
    else selectStep (r - (it.w : ℚ)) used rest

/-- The while-loop of weightedSample.  acc plays the role of both the result
array and the used set (they always hold the same questions, in selection
order).  Each iteration of the JavaScript loop consumes one Math.random()
value, so the loop is driven by the draw stream: the loop exits when enough
items are selected or the total unselected weight is zero. -/
def goSample (items : List WItem) (target : Nat) (acc : List Question) : List ℚ → List Question
  | [] => acc
  | u :: us =>
    if acc.length < target then
      if sumUnused items acc = 0 then acc
      else
        match selectStep (u * (sumUnused items acc : ℚ)) acc items with
        | some q => goSample items target (acc ++ [q]) us
        | none => goSample items target acc us
    else acc

/-- weightedSample(pool, count) from the Exam Zone, with the error-weight
table and the random stream passed explicitly. -/
def weightedSample (W : WeightTable) (pool : List Question) (count : Nat) (draws : List ℚ) : List Question :=
  goSample (mkItems W pool) (min count pool.length) [] draws

/-- A stream of Math.random() outputs: every value lies in [0, 1). -/
abbrev validDraws (draws : List ℚ) : Prop :=
  ∀ u ∈ draws, 0 ≤ u ∧ u < 1

/-- Pool construction in handleStart of the Exam Zone:
"selectedCats.length > 0 ? selectedCats.flatMap(cat => categories[cat] || []) : questions". -/
def categoriesPool (selectedCats : List String) (categories : List (String × List Question)) (questions : List Question) : List Question :=
  if selectedCats.length > 0 then
    selectedCats.flatMap (fun cat => ((categories.lookup cat).getD []))
  else questions

/-- Local answer record of the Exam Zone: "{ selected: opt, isCorrect }". -/
structure ZoneAnswer where
  selected : Option QOption
  isCorrect : Bool
deriving DecidableEq

/-- Component state of the Exam Zone touched by handleStart. -/
structure ZoneState where
  examQuestions : List Question
  answers : List (Option ZoneAnswer)
  started : Bool
  timer : Nat
  currentIdx : Nat
deriving DecidableEq

/-- handleStart of the Exam Zone: build the filtered pool, sample 30
questions, and reset the component state to a started exam.  The new state
does not depend on the previous one; every relevant field is set. -/
def handleStart (selectedCats : List String) (categories : List (String × List Question)) (questions : List Question) (W : WeightTable) (draws : List ℚ) : ZoneState :=
  let pool := categoriesPool selectedCats categories questions
  let picked := weightedSample W pool 30 draws
  { examQuestions := picked
    answers := []
    started := true
    timer := 40 * 60
    currentIdx := 0 }

/-- Coercion "!!opt?.is_correct" of the answer handlers: a missing option is
falsy, otherwise the flag decides. -/
def jsIsCorrect (opt : Option QOption) : Bool :=
  match opt with
  | some o => o.is_correct
  | none => false

/-- JavaScript array element assignment "arr[idx] = v" on a copy of the
array: missing positions up to idx are filled with holes (none). -/
def setPad (l : List (Option α)) (i : Nat) (v : Option α) : List (Option α) :=
  match l, i with
  | [], 0 => [v]
  | [], Nat.succ j => none :: setPad [] j v
  | _ :: xs, 0 => v :: xs
  | x :: xs, Nat.succ j => x :: setPad xs j v

/-- handleAnswer of the Exam Zone: store the selected option and its
correctness at the question index, and on a wrong answer increment the
stored error weight of that question by one (no cap on the stored value).
Returns the new answers array and the new weight table. -/
def handleAnswer (idx : Nat) (opt : Option QOption) (examQuestions : List Question) (answers : List (Option ZoneAnswer)) (W : WeightTable) : List (Option ZoneAnswer) × WeightTable :=
  let isCorrect := jsIsCorrect opt
  let newAns := setPad answers idx (some ⟨opt, isCorrect⟩)
  let W₁ :=
    match isCorrect, examQuestions[idx]? with
    | false, some q => setW W (questionKey q) (lookupW W (questionKey q) + 1)
    | false, none => W
    | true, _ => W
  (newAns, W₁)

/-- Answer payload kept by the backend-driven exam page (Exam.js):
question id and selected option id. -/
structure ClientAnswer where
  question_id : String
  selected_option_id : String
deriving DecidableEq

/-- Local answer update of Exam.js handleAnswer: drop any previous answer
for the question and append the new one. -/
def recordAnswerLocal (answers : List ClientAnswer) (q oid : String) : List ClientAnswer :=
  (answers.filter (fun a => a.question_id ≠ q)) ++ [⟨q, oid⟩]

/-- Snapshotted question of a stored exam session, as consumed by
ExamDetails.js (keyed by question_id). -/
structure SnapQuestion where
  question_id : String
  stext : String
  options : List QOption
deriving DecidableEq

/-- Stored answer of a completed session, as consumed by ExamDetails.js. -/
structure SnapAnswer where
  question_id : String
  selected_option_id : String
  is_correct : Bool
deriving DecidableEq

/-- Stored exam session fetched from /api/exam/:id. -/
structure Exam where
  questions : List SnapQuestion
  answers : List SnapAnswer
deriving DecidableEq

/-- Total shown by ExamDetails.js: "exam.questions.length". -/
def examTotal (e : Exam) : Nat :=
  e.questions.length

/-- Correct count shown by ExamDetails.js:
"(exam.answers || []).filter(a => a.is_correct).length". -/
def examCorrect (e : Exam) : Nat :=
  (e.answers.filter (fun a => a.is_correct)).length

/-- Pass display of ExamDetails.js: "correct >= 25 ? Admis : Ajourne",
a fixed constant independent of the session question count. -/
def examDetailsAdmis (correct : Nat) : Bool :=
  25 ≤ correct

/-- Modelled from the spec: the pass rule claimed by the specification,
"passed = score_percentage >= 83 percent", written without division as
83 * total <= 100 * correct.  Used only to compare the source pass display
against the claimed rule. -/
def specPassed (correct total : Nat) : Prop :=
  83 * total ≤ 100 * correct

/-- The not-yet-selected items of the sampling pool, in pool order. -/
def unselected (items : List WItem) (used : List Question) : List WItem :=
  items.filter (fun it => decide (it.q ∉ used))

/-- Cumulative weight of the first k items of a weighted list: the lower end
of the weight band of item k. -/
def cumW (its : List WItem) (k : Nat) : Nat :=
  ((its.take k).map (fun it => it.w)).sum

/-- Concrete question with a correct and a wrong option, for witnesses. -/
def demoQ1 : Question :=
  ⟨some "q1", none, none, "t1", [⟨"a", "x", true⟩, ⟨"b", "y", false⟩]⟩

/-- Second concrete question, for witnesses. -/
def demoQ2 : Question :=
  ⟨some "q2", none, none, "t2", [⟨"c", "x", false⟩, ⟨"d", "y", true⟩]⟩

/-- Third concrete question, for witnesses. -/
def demoQ3 : Question :=
  ⟨some "q3", none, none, "t3", []⟩

/-- A selected option whose is-correct flag is false, for witnesses. -/
def demoWrongOption : QOption :=
  ⟨"b", "y", false⟩

/-- Completed 28-question session with 24 correct answers: above the 83
percent bar (24/28 is about 85.7 percent) but below the fixed constant 25. -/
def demoExam28 : Exam :=
  ⟨List.replicate 28 ⟨"q", "t", []⟩,
   List.replicate 24 ⟨"q", "a", true⟩ ++ List.replicate 4 ⟨"q", "a", false⟩⟩

/-- Small completed session: two questions, one correct recorded answer. -/
def demoExam2 : Exam :=
  ⟨[⟨"s1", "t", []⟩, ⟨"s2", "t", []⟩], [⟨"s1", "a", true⟩]⟩

/-- Concrete weighted item list with bands [0, 2) and [2, 5), for witnesses. -/
def demoItems : List WItem :=
  [⟨demoQ1, 2⟩, ⟨demoQ2, 3⟩]

theorem lookupW_setW_self (W : WeightTable) (k : String) (v : Nat) :
    lookupW (setW W k v) k = v := by
  induction W with
  | nil => simp [setW, lookupW]
  | cons p rest ih =>
    obtain ⟨k₀, v₀⟩ := p
    by_cases h : k₀ = k
    · subst h
      simp [setW, lookupW]
    · simp [setW, h, lookupW, ih]

theorem lookupW_setW_of_ne (W : WeightTable) (k k' : String) (v : Nat) (h : k ≠ k') :
    lookupW (setW W k v) k' = lookupW W k' := by
  induction W with
  | nil => simp [setW, lookupW, h]
  | cons p rest ih =>
    obtain ⟨k₀, v₀⟩ := p
    by_cases h₀ : k₀ = k
    · subst h₀
      simp [setW, lookupW, h]
    · simp [setW, h₀, lookupW, ih]

theorem getElem?_setPad (l : List (Option α)) (i : Nat) (v : Option α) :
    (setPad l i v)[i]? = some v := by
  induction i generalizing l with
  | zero => cases l <;> simp [setPad]
  | succ j ih => cases l <;> simp [setPad, ih]

/-- Claim C1 (counterexample).  A completed 28-question session with 24
correct answers satisfies the 83 percent rule claimed by the spec, yet the
ExamDetails pass display computed from the source (correct at least 25)
shows a fail: the pass decision in the source is the fixed constant 25, not
the 83 percent rule. -/
theorem examDetails_fixed25_counterexample :
    examTotal demoExam28 = 28 ∧ examCorrect demoExam28 = 24 ∧
    specPassed (examCorrect demoExam28) (examTotal demoExam28) ∧
    examDetailsAdmis (examCorrect demoExam28) = false := by
  refine ⟨by decide, by decide, ?_, by decide⟩
  show 83 * examTotal demoExam28 ≤ 100 * examCorrect demoExam28
  decide

/-- Claim C1 (amended).  The pass display of ExamDetails is the fixed rule
"correct at least 25"; it agrees with the claimed 83-percent-of-total rule
exactly when the session has 30 questions, and diverges on smaller sessions
such as 24 correct out of 28. -/
theorem examDetails_pass_rule_thirty (c : Nat) :
    examDetailsAdmis c = true ↔ specPassed c 30 := by
  simp only [examDetailsAdmis, specPassed, decide_eq_true_eq]
  omega

/-- Claim C2.  At Start, the weighted sampler pairs every pool question with
the sampling weight min 10 (W[key] + 1), where a key missing from the
error-weight table counts as 0; in particular an unseen question gets
weight 1, and every weight lies between 1 and 10. -/
theorem start_sampling_weight (W : WeightTable) (pool : List Question) (q : Question)
    (hq : q ∈ pool) :
    (⟨q, min 10 (lookupW W (questionKey q) + 1)⟩ : WItem) ∈ mkItems W pool ∧
    (lookupW W (questionKey q) = 0 → sampleWeight W q = 1) ∧
    1 ≤ sampleWeight W q ∧ sampleWeight W q ≤ 10 := by
  refine ⟨?_, ?_, ?_, ?_⟩
  · exact List.mem_map.2 ⟨q, hq, rfl⟩
  · intro h
    simp [sampleWeight, h]
  · simp [sampleWeight]
  · simp [sampleWeight]

/-- Claim C2 (witness). -/
theorem start_sampling_weight_witness :
    (⟨demoQ1, min 10 (lookupW [] (questionKey demoQ1) + 1)⟩ : WItem) ∈ mkItems [] [demoQ1] ∧
    (lookupW [] (questionKey demoQ1) = 0 → sampleWeight [] demoQ1 = 1) ∧
    1 ≤ sampleWeight [] demoQ1 ∧ sampleWeight [] demoQ1 ≤ 10 :=
  start_sampling_weight [] [demoQ1] demoQ1 (by decide)

/-- Claim C4 (counterexample).  handleStart called with a category filter
matching zero questions does not fail: it produces a started session whose
question list is empty.  The source has no InsufficientPoolError path at
all. -/
theorem handleStart_empty_pool_counterexample :
    categoriesPool ["X"] [("A", [demoQ1])] [demoQ1] = [] ∧
    (handleStart ["X"] [("A", [demoQ1])] [demoQ1] [] [0]).started = true ∧
    (handleStart ["X"] [("A", [demoQ1])] [demoQ1] [] [0]).examQuestions = [] := by
  refine ⟨by decide, by decide, by decide⟩

/-- Claim C4 (amended).  Whenever the filtered pool is empty, handleStart
still begins a session: started is set and the question list is empty; no
error is raised and no error value exists in the source. -/
theorem handleStart_empty_pool (selectedCats : List String)
    (categories : List (String × List Question)) (questions : List Question)
    (W : WeightTable) (draws : List ℚ)
    (h : categoriesPool selectedCats categories questions = []) :
    (handleStart selectedCats categories questions W draws).started = true ∧
    (handleStart selectedCats categories questions W draws).examQuestions = [] := by
  constructor
  · rfl
  · show weightedSample W (categoriesPool selectedCats categories questions) 30 draws = []
    rw [h]
    show goSample (mkItems W []) (min 30 ([] : List Question).length) [] draws = []
    cases draws <;> simp [goSample]

/-- Claim C4 (witness). -/
theorem handleStart_empty_pool_witness :
    (handleStart ["Y"] [] [] [] []).started = true ∧
    (handleStart ["Y"] [] [] [] []).examQuestions = [] :=
  handleStart_empty_pool ["Y"] [] [] [] [] (by decide)

/-- Claim C5 (counterexample).  The stored error weight is not capped at 10:
starting from a stored weight of 10, one more incorrect answer recorded by
the Exam Zone handleAnswer stores 11.  Only the derived sampling weight is
capped (at read time, in weightedSample). -/
theorem errorWeight_cap_counterexample :
    lookupW (handleAnswer 0 (some demoWrongOption) [demoQ1] []
      [(questionKey demoQ1, 10)]).2 (questionKey demoQ1) = 11 ∧ ¬ (11 ≤ 10) := by
  refine ⟨by decide, by decide⟩

/-- Claim C5 (amended).  Recording an incorrect answer increments the stored
error weight of that question by exactly 1 with no cap on the stored value
(the cap at 10 is applied only when the weight is read back for sampling);
no other key changes, no weight ever decreases, and recording a correct
answer leaves the table unchanged. -/
theorem handleAnswer_weight_update (idx : Nat) (opt : Option QOption)
    (eqs : List Question) (ans : List (Option ZoneAnswer)) (W : WeightTable)
    (q : Question) (hq : eqs[idx]? = some q) :
    (jsIsCorrect opt = false →
      lookupW (handleAnswer idx opt eqs ans W).2 (questionKey q)
        = lookupW W (questionKey q) + 1 ∧
      ∀ k, k ≠ questionKey q →
        lookupW (handleAnswer idx opt eqs ans W).2 k = lookupW W k) ∧
    (jsIsCorrect opt = true → (handleAnswer idx opt eqs ans W).2 = W) ∧
    (∀ k, lookupW W k ≤ lookupW (handleAnswer idx opt eqs ans W).2 k) := by
  refine ⟨?_, ?_, ?_⟩
  · intro hwrong
    simp only [handleAnswer, hwrong, hq]
    exact ⟨lookupW_setW_self W _ _, fun k hk =>
      lookupW_setW_of_ne W _ k _ (fun h => hk h.symm)⟩
  · intro hright
    simp [handleAnswer, hright]
  · intro k
    by_cases hc : jsIsCorrect opt = true
    · simp [handleAnswer, hc]
    · simp only [Bool.not_eq_true] at hc
      simp only [handleAnswer, hc, hq]
      by_cases hk : k = questionKey q
      · subst hk
        rw [lookupW_setW_self]
        omega
      · rw [lookupW_setW_of_ne W _ k _ (fun h => hk h.symm)]

/-- Claim C5 (witness). -/
theorem handleAnswer_weight_update_witness :
    lookupW (handleAnswer 0 (some demoWrongOption) [demoQ1] [] []).2 (questionKey demoQ1)
      = lookupW [] (questionKey demoQ1) + 1 :=
  ((handleAnswer_weight_update 0 (some demoWrongOption) [demoQ1] [] [] demoQ1
    (by decide)).1 (by decide)).1

theorem filter_eq_recordAnswerLocal (l : List ClientAnswer) (q o : String) :
    (recordAnswerLocal l q o).filter (fun a => a.question_id == q) = [⟨q, o⟩] := by
  have hnil : (l.filter (fun a => a.question_id ≠ q)).filter
      (fun a => a.question_id == q) = [] := by
    apply List.filter_eq_nil_iff.2
    intro a ha
    have h := List.of_mem_filter ha
    simp only [decide_eq_true_eq] at h
    simp [h]
  simp [recordAnswerLocal, List.filter_append, hnil]

theorem nodup_recordAnswerLocal (l : List ClientAnswer) (q o : String)
    (h : (l.map (fun a => a.question_id)).Nodup) :
    ((recordAnswerLocal l q o).map (fun a => a.question_id)).Nodup := by
  simp only [recordAnswerLocal, List.map_append]
  rw [List.nodup_append]
  refine ⟨h.sublist ((List.filter_sublist l).map _), by simp, ?_⟩
  intro x hx hy
  simp only [List.mem_map, List.mem_filter, decide_eq_true_eq] at hx
  obtain ⟨a, ⟨_, ha⟩, rfl⟩ := hx
  simp only [List.map_cons, List.map_nil, List.mem_cons, List.not_mem_nil,
    or_false] at hy
  exact ha hy

/-- Claim C6.  Re-answering a question in the Exam.js local answer list
keeps exactly one entry for that question, the latest one: after recording
option o1 and then option o2 for question q, the entries for q are exactly
the single record selecting o2, and uniqueness of question ids in the list
is preserved. -/
theorem recordAnswer_upsert (answers : List ClientAnswer) (q o1 o2 : String) :
    (recordAnswerLocal (recordAnswerLocal answers q o1) q o2).filter
      (fun a => a.question_id == q) = [⟨q, o2⟩] ∧
    ((answers.map (fun a => a.question_id)).Nodup →
      ((recordAnswerLocal (recordAnswerLocal answers q o1) q o2).map
        (fun a => a.question_id)).Nodup) :=
  ⟨filter_eq_recordAnswerLocal _ q o2,
   fun hnd => nodup_recordAnswerLocal _ q o2 (nodup_recordAnswerLocal _ q o1 hnd)⟩

/-- Claim C6 (witness). -/
theorem recordAnswer_upsert_witness :
    (recordAnswerLocal (recordAnswerLocal [⟨"qz", "a"⟩] "qz" "b") "qz" "c").filter
      (fun a => a.question_id == "qz") = [⟨"qz", "c"⟩] ∧
    ((recordAnswerLocal (recordAnswerLocal [⟨"qz", "a"⟩] "qz" "b") "qz" "c").map
      (fun a => a.question_id)).Nodup :=
  ⟨(recordAnswer_upsert [⟨"qz", "a"⟩] "qz" "b" "c").1,
   (recordAnswer_upsert [⟨"qz", "a"⟩] "qz" "b" "c").2 (by decide)⟩

/-- Claim C7.  The correct count shown for a stored session equals the
number of recorded answers whose is-correct flag is set, and when the
answers reference only snapshotted questions with at most one answer per
question id, the count is bounded by the snapshotted question count. -/
theorem finish_correct_count (e : Exam)
    (h1 : ∀ a ∈ e.answers, a.question_id ∈ e.questions.map (fun s => s.question_id))
    (h2 : (e.answers.map (fun a => a.question_id)).Nodup) :
    examCorrect e = e.answers.countP (fun a => a.is_correct) ∧
    examCorrect e ≤ examTotal e := by
  constructor
  · exact (List.countP_eq_length_filter _ _).symm
  · have hlen : e.answers.length ≤ e.questions.length := by
      have hsub : e.answers.map (fun a => a.question_id) ⊆
          e.questions.map (fun s => s.question_id) := by
        intro x hx
        obtain ⟨a, ha, rfl⟩ := List.mem_map.1 hx
        exact h1 a ha
      have := (List.subperm_of_subset h2 hsub).length_le
      simpa using this
    calc examCorrect e ≤ e.answers.length := e.answers.length_filter_le _
      _ ≤ e.questions.length := hlen

/-- Claim C7 (witness). -/
theorem finish_correct_count_witness :
    examCorrect demoExam2 = demoExam2.answers.countP (fun a => a.is_correct) ∧
    examCorrect demoExam2 ≤ examTotal demoExam2 :=
  finish_correct_count demoExam2 (by decide) (by decide)

/-- Claim C9 (counterexample).  A session started by the Exam Zone carries
the full question objects, options and is-correct flags included: the
started session for a one-question pool holds exactly that question, whose
option list exposes which option is correct, and the client-side
correctness check of handleAnswer is exactly the flag read from that
payload.  Correctness is therefore derivable from the Start payload. -/
theorem startPayload_leaks_correctness :
    (handleStart ["C"] [("C", [demoQ1])] [] [] [0]).examQuestions = [demoQ1] ∧
    demoQ1.options.map (fun o => jsIsCorrect (some o)) = [true, false] := by
  constructor
  · show weightedSample [] (categoriesPool ["C"] [("C", [demoQ1])] []) 30 [0]
      = [demoQ1]
    norm_num [weightedSample, goSample, mkItems, sumUnused, selectStep,
      sampleWeight, lookupW, questionKey, strOr, categoriesPool, demoQ1]
  · decide

/-- Claim C9 (amended).  In the Exam Zone flow the client already holds the
is-correct flags: the answer record stored by handleAnswer at the answered
index carries a correctness bit computed purely from the delivered option
(the coercion of opt.is_correct), not from any server response. -/
theorem zone_correctness_from_payload (idx : Nat) (opt : Option QOption)
    (eqs : List Question) (ans : List (Option ZoneAnswer)) (W : WeightTable) :
    ((handleAnswer idx opt eqs ans W).1)[idx]? = some (some ⟨opt, jsIsCorrect opt⟩) :=
  getElem?_setPad ans idx (some ⟨opt, jsIsCorrect opt⟩)

theorem foldl_add_eq_sum (f : WItem → Nat) (l : List WItem) (a : Nat) :
    l.foldl (fun s it => s + f it) a = a + (l.map f).sum := by
  induction l generalizing a with
  | nil => simp
  | cons it rest ih =>
    simp only [List.foldl_cons, List.map_cons, List.sum_cons, ih (a + f it)]
    omega

theorem sumUnused_cons (it : WItem) (rest : List WItem) (used : List Question) :
    sumUnused (it :: rest) used
      = (if it.q ∈ used then 0 else it.w) + sumUnused rest used := by
  simp only [sumUnused, List.foldl_cons, Nat.zero_add]
  rw [foldl_add_eq_sum, foldl_add_eq_sum]
  omega

theorem sumUnused_eq (items : List WItem) (used : List Question) :
    sumUnused items used = ((unselected items used).map (fun it => it.w)).sum := by
  induction items with
  | nil => rfl
  | cons it rest ih =>
    rw [sumUnused_cons]
    by_cases h : it.q ∈ used
    · rw [if_pos h]
      have : unselected (it :: rest) used = unselected rest used := by
        simp [unselected, List.filter_cons, h]
      rw [this, ih, Nat.zero_add]
    · rw [if_neg h]
      have : unselected (it :: rest) used = it :: unselected rest used := by
        simp [unselected, List.filter_cons, h]
      rw [this, List.map_cons, List.sum_cons, ih]

theorem sumUnused_pos (items : List WItem) (used : List Question) (it : WItem)
    (hit : it ∈ items) (hq : it.q ∉ used) (hw : 1 ≤ it.w) :
    0 < sumUnused items used := by
  rw [sumUnused_eq]
  have hmem : it ∈ unselected items used :=
    List.mem_filter.2 ⟨hit, by simp [hq]⟩
  have hwm : it.w ∈ (unselected items used).map (fun it => it.w) :=
    List.mem_map.2 ⟨it, hmem, rfl⟩
  have := List.single_le_sum (fun y _ => Nat.zero_le y) _ hwm
  omega

theorem one_le_sampleWeight (W : WeightTable) (q : Question) :
    1 ≤ sampleWeight W q := by
  simp [sampleWeight]

theorem mem_mkItems_one_le (W : WeightTable) (pool : List Question) (it : WItem)
    (h : it ∈ mkItems W pool) : 1 ≤ it.w := by
  obtain ⟨q, _, rfl⟩ := List.mem_map.1 h
  exact one_le_sampleWeight W q

theorem mkItems_map_q (W : WeightTable) (pool : List Question) :
    (mkItems W pool).map (fun it => it.q) = pool := by
  simp [mkItems, List.map_map, Function.comp_def]

theorem selectStep_sound (items : List WItem) (used : List Question) (r : ℚ)
    (q : Question) (h : selectStep r used items = some q) :
    q ∉ used ∧ ∃ it ∈ items, it.q = q := by
  induction items generalizing r with
  | nil => simp [selectStep] at h
  | cons it rest ih =>
    by_cases hu : it.q ∈ used
    · rw [selectStep, if_pos hu] at h
      obtain ⟨h1, it', hit', rfl⟩ := ih r h
      exact ⟨h1, it', List.mem_cons_of_mem _ hit', rfl⟩
    · rw [selectStep, if_neg hu] at h
      by_cases hr : r < (it.w : ℚ)
      · rw [if_pos hr] at h
        obtain rfl : it.q = q := by simpa using h
        exact ⟨hu, it, List.mem_cons_self _ _, rfl⟩
      · rw [if_neg hr] at h
        obtain ⟨h1, it', hit', rfl⟩ := ih _ h
        exact ⟨h1, it', List.mem_cons_of_mem _ hit', rfl⟩

theorem selectStep_succeeds (items : List WItem) (used : List Question) (r : ℚ)
    (h0 : 0 ≤ r) (hlt : r < (sumUnused items used : ℚ)) :
    ∃ q, selectStep r used items = some q := by
  induction items generalizing r with
  | nil =>
    exfalso
    have : sumUnused ([] : List WItem) used = 0 := rfl
    rw [this] at hlt
    push_cast at hlt
    linarith
  | cons it rest ih =>
    rw [sumUnused_cons] at hlt
    by_cases hu : it.q ∈ used
    · rw [if_pos hu] at hlt
      push_cast at hlt
      obtain ⟨q, hq⟩ := ih r h0 (by linarith)
      exact ⟨q, by rw [selectStep, if_pos hu]; exact hq⟩
    · rw [if_neg hu] at hlt
      push_cast at hlt
      by_cases hr : r < (it.w : ℚ)
      · exact ⟨it.q, by rw [selectStep, if_neg hu, if_pos hr]⟩
      · push_neg at hr
        obtain ⟨q, hq⟩ := ih (r - (it.w : ℚ)) (by linarith) (by linarith)
        refine ⟨q, ?_⟩
        rw [selectStep, if_neg hu, if_neg (by push_neg; exact hr)]
        exact hq

theorem cumW_zero (its : List WItem) : cumW its 0 = 0 := rfl

theorem cumW_nil (k : Nat) : cumW ([] : List WItem) k = 0 := by
  simp [cumW]

theorem cumW_cons_succ (x : WItem) (xs : List WItem) (k : Nat) :
    cumW (x :: xs) (k + 1) = x.w + cumW xs k := by
  simp [cumW, List.take_succ_cons]

theorem cumW_succ_of_lt (its : List WItem) (k : Nat) (hk : k < its.length) :
    cumW its (k + 1) = cumW its k + (its.get ⟨k, hk⟩).w := by
  induction its generalizing k with
  | nil => exact absurd hk (by simp)
  | cons x xs ih =>
    cases k with
    | zero => simp [cumW_cons_succ, cumW_zero]
    | succ j =>
      have hj : j < xs.length := by simpa using hk
      rw [cumW_cons_succ, cumW_cons_succ, ih j hj]
      simp [List.get_cons_succ]
      omega

theorem cumW_le_of_le (its : List WItem) (a b : Nat) (h : a ≤ b) :
    cumW its a ≤ cumW its b := by
  induction its generalizing a b with
  | nil => simp [cumW_nil]
  | cons x xs ih =>
    cases a with
    | zero => simp [cumW_zero]
    | succ i =>
      cases b with
      | zero => omega
      | succ j =>
        rw [cumW_cons_succ, cumW_cons_succ]
        have := ih i j (by omega)
        omega

theorem bands_unique (its : List WItem) (r : ℚ) (j k : Nat)
    (hj1 : (cumW its j : ℚ) ≤ r) (hj2 : r < (cumW its (j + 1) : ℚ))
    (hk1 : (cumW its k : ℚ) ≤ r) (hk2 : r < (cumW its (k + 1) : ℚ)) :
    j = k := by
  rcases lt_trichotomy j k with h | h | h
  · exfalso
    have hle : cumW its (j + 1) ≤ cumW its k := cumW_le_of_le its (j + 1) k (by omega)
    have : (cumW its (j + 1) : ℚ) ≤ (cumW its k : ℚ) := by exact_mod_cast hle
    linarith
  · exact h
  · exfalso
    have hle : cumW its (k + 1) ≤ cumW its j := cumW_le_of_le its (k + 1) j (by omega)
    have : (cumW its (k + 1) : ℚ) ≤ (cumW its j : ℚ) := by exact_mod_cast hle
    linarith

theorem selectStep_band_aux (items : List WItem) (used : List Question) (r : ℚ)
    (k : Nat) (sel : WItem)
    (hsel : (unselected items used)[k]? = some sel)
    (hlo : (cumW (unselected items used) k : ℚ) ≤ r)
    (hhi : r < (cumW (unselected items used) (k + 1) : ℚ)) :
    selectStep r used items = some sel.q := by
  induction items generalizing r k with
  | nil => simp [unselected] at hsel
  | cons it rest ih =>
    by_cases hu : it.q ∈ used
    · have hsame : unselected (it :: rest) used = unselected rest used := by
        simp [unselected, List.filter_cons, hu]
      rw [hsame] at hsel hlo hhi
      rw [selectStep, if_pos hu]
      exact ih r k hsel hlo hhi
    · have hcons : unselected (it :: rest) used = it :: unselected rest used := by
        simp [unselected, List.filter_cons, hu]
      rw [hcons] at hsel hlo hhi
      rw [selectStep, if_neg hu]
      cases k with
      | zero =>
        obtain rfl : it = sel := by simpa using hsel
        have hw : r < (it.w : ℚ) := by
          rw [cumW_cons_succ, cumW_zero] at hhi
          push_cast at hhi
          linarith
        rw [if_pos hw]
      | succ j =>
        rw [List.getElem?_cons_succ] at hsel
        have hge : (it.w : ℚ) ≤ r := by
          rw [cumW_cons_succ] at hlo
          push_cast at hlo
          have : (0 : ℚ) ≤ (cumW (unselected rest used) j : ℚ) := by positivity
          linarith
        rw [if_neg (by push_neg; exact hge)]
        have hlo' : (cumW (unselected rest used) j : ℚ) ≤ r - (it.w : ℚ) := by
          rw [cumW_cons_succ] at hlo
          push_cast at hlo
          linarith
        have hhi' : r - (it.w : ℚ) < (cumW (unselected rest used) (j + 1) : ℚ) := by
          rw [cumW_cons_succ] at hhi
          push_cast at hhi
          linarith
        exact ih (r - (it.w : ℚ)) j hsel hlo' hhi'

theorem goSample_mem (items : List WItem) (target : Nat) :
    ∀ (draws : List ℚ) (acc : List Question) (x : Question),
      x ∈ goSample items target acc draws →
      x ∈ acc ∨ ∃ it ∈ items, it.q = x := by
  intro draws
  induction draws with
  | nil =>
    intro acc x hx
    exact Or.inl hx
  | cons u us ih =>
    intro acc x hx
    rw [goSample] at hx
    by_cases hlt : acc.length < target
    · rw [if_pos hlt] at hx
      by_cases hz : sumUnused items acc = 0
      · rw [if_pos hz] at hx
        exact Or.inl hx
      · rw [if_neg hz] at hx
        cases hsel : selectStep (u * (sumUnused items acc : ℚ)) acc items with
        | none =>
          rw [hsel] at hx
          exact ih acc x hx
        | some q =>
          rw [hsel] at hx
          rcases ih (acc ++ [q]) x hx with hmem | hit
          · rcases List.mem_append.1 hmem with h | h
            · exact Or.inl h
            · have hxq : x = q := by simpa using h
              subst hxq
              exact Or.inr (selectStep_sound items acc _ x hsel).2
          · exact Or.inr hit
    · rw [if_neg hlt] at hx
      exact Or.inl hx

theorem goSample_nodup (items : List WItem) (target : Nat) :
    ∀ (draws : List ℚ) (acc : List Question), acc.Nodup →
      (goSample items target acc draws).Nodup := by
  intro draws
  induction draws with
  | nil =>
    intro acc hacc
    exact hacc
  | cons u us ih =>
    intro acc hacc
    rw [goSample]
    by_cases hlt : acc.length < target
    · rw [if_pos hlt]
      by_cases hz : sumUnused items acc = 0
      · rw [if_pos hz]
        exact hacc
      · rw [if_neg hz]
        cases hsel : selectStep (u * (sumUnused items acc : ℚ)) acc items with
        | none => exact ih acc hacc
        | some q =>
          refine ih (acc ++ [q]) ?_
          rw [List.nodup_append]
          refine ⟨hacc, by simp, ?_⟩
          intro x hxa hxq
          have hx : x = q := by simpa using hxq
          subst hx
          exact (selectStep_sound items acc _ x hsel).1 hxa
    · rw [if_neg hlt]
      exact hacc

theorem goSample_length (items : List WItem) (target : Nat)
    (hw : ∀ it ∈ items, 1 ≤ it.w)
    (hqn : (items.map (fun it => it.q)).Nodup)
    (htarget : target ≤ items.length) :
    ∀ (draws : List ℚ) (acc : List Question), validDraws draws → acc.Nodup →
      (∀ x ∈ acc, x ∈ items.map (fun it => it.q)) →
      acc.length ≤ target → target ≤ acc.length + draws.length →
      (goSample items target acc draws).length = target := by
  intro draws
  induction draws with
  | nil =>
    intro acc _ _ _ hle hge
    simp only [goSample]
    simp only [List.length_nil, Nat.add_zero] at hge
    omega
  | cons u us ih =>
    intro acc hv hacc hsub hle hge
    rw [goSample]
    by_cases hlt : acc.length < target
    · rw [if_pos hlt]
      have hex : ∃ it ∈ items, it.q ∉ acc := by
        by_contra hno
        push_neg at hno
        have hsub2 : items.map (fun it => it.q) ⊆ acc := by
          intro x hx
          obtain ⟨it, hit, rfl⟩ := List.mem_map.1 hx
          exact hno it hit
        have hlen := (List.subperm_of_subset hqn hsub2).length_le
        rw [List.length_map] at hlen
        omega
      obtain ⟨it, hit, hitq⟩ := hex
      have hpos : 0 < sumUnused items acc :=
        sumUnused_pos items acc it hit hitq (hw it hit)
      rw [if_neg (by omega)]
      have hu := hv u (List.mem_cons_self u us)
      have htpos : (0 : ℚ) < (sumUnused items acc : ℚ) := by exact_mod_cast hpos
      have hr0 : 0 ≤ u * (sumUnused items acc : ℚ) := mul_nonneg hu.1 (le_of_lt htpos)
      have hrlt : u * (sumUnused items acc : ℚ) < (sumUnused items acc : ℚ) := by
        calc u * (sumUnused items acc : ℚ)
            < 1 * (sumUnused items acc : ℚ) := by
              exact mul_lt_mul_of_pos_right hu.2 htpos
          _ = (sumUnused items acc : ℚ) := one_mul _
      obtain ⟨q, hq⟩ := selectStep_succeeds items acc _ hr0 hrlt
      rw [hq]
      have hsound := selectStep_sound items acc _ q hq
      refine ih (acc ++ [q]) (fun x hx => hv x (List.mem_cons_of_mem u hx)) ?_ ?_ ?_ ?_
      · rw [List.nodup_append]
        refine ⟨hacc, by simp, ?_⟩
        intro x hxa hxq
        obtain rfl : x = q := by simpa using hxq
        exact hsound.1 hxa
      · intro x hx
        rcases List.mem_append.1 hx with h | h
        · exact hsub x h
        · obtain rfl : x = q := by simpa using h
          obtain ⟨it', hit', rfl⟩ := hsound.2
          exact List.mem_map.2 ⟨it', hit', rfl⟩
      · rw [List.length_append]
        simpa using hlt
      · rw [List.length_append]
        simp only [List.length_cons] at hge
        simp
        omega
    · rw [if_neg hlt]
      omega

theorem goSample_take (items : List WItem) (target : Nat) :
    ∀ (draws : List ℚ) (acc : List Question), validDraws draws →
      goSample items target acc draws
        = goSample items target acc (draws.take (target - acc.length)) := by
  intro draws
  induction draws with
  | nil =>
    intro acc _
    simp
  | cons u us ih =>
    intro acc hv
    by_cases hlt : acc.length < target
    · have hsplit : target - acc.length = (target - (acc.length + 1)) + 1 := by omega
      rw [hsplit, List.take_succ_cons, goSample, goSample]
      by_cases hz : sumUnused items acc = 0
      · rw [if_pos hlt, if_pos hlt, if_pos hz, if_pos hz]
      · rw [if_pos hlt, if_pos hlt, if_neg hz, if_neg hz]
        have hpos : 0 < sumUnused items acc := Nat.pos_of_ne_zero hz
        have hu := hv u (List.mem_cons_self u us)
        have htpos : (0 : ℚ) < (sumUnused items acc : ℚ) := by exact_mod_cast hpos
        have hr0 : 0 ≤ u * (sumUnused items acc : ℚ) := mul_nonneg hu.1 (le_of_lt htpos)
        have hrlt : u * (sumUnused items acc : ℚ) < (sumUnused items acc : ℚ) := by
          calc u * (sumUnused items acc : ℚ)
              < 1 * (sumUnused items acc : ℚ) := mul_lt_mul_of_pos_right hu.2 htpos
            _ = (sumUnused items acc : ℚ) := one_mul _
        obtain ⟨q, hq⟩ := selectStep_succeeds items acc _ hr0 hrlt
        rw [hq]
        have hlen : target - ((acc ++ [q]).length) = target - (acc.length + 1) := by
          rw [List.length_append]
          simp
        calc goSample items target (acc ++ [q]) us
            = goSample items target (acc ++ [q])
                (us.take (target - (acc ++ [q]).length)) :=
              ih (acc ++ [q]) (fun x hx => hv x (List.mem_cons_of_mem u hx))
          _ = goSample items target (acc ++ [q]) (us.take (target - (acc.length + 1))) := by
              rw [hlen]
    · have hz : target - acc.length = 0 := by omega
      rw [hz, List.take_zero, goSample, goSample, if_neg hlt]

/-- Claim C3.  For a duplicate-free pool and any valid random stream long
enough to drive the loop, Start's weighted sampler returns exactly
min 30 (pool size) questions, each of them a pool element, with no question
selected twice. -/
theorem weightedSample_spec (W : WeightTable) (pool : List Question)
    (draws : List ℚ) (hnd : pool.Nodup) (hv : validDraws draws)
    (hlen : min 30 pool.length ≤ draws.length) :
    (weightedSample W pool 30 draws).length = min 30 pool.length ∧
    (∀ q ∈ weightedSample W pool 30 draws, q ∈ pool) ∧
    (weightedSample W pool 30 draws).Nodup := by
  have hqn : ((mkItems W pool).map (fun it => it.q)).Nodup := by
    rw [mkItems_map_q]
    exact hnd
  refine ⟨?_, ?_, ?_⟩
  · refine goSample_length (mkItems W pool) (min 30 pool.length)
      (mem_mkItems_one_le W pool) hqn ?_ draws [] hv (by simp) (by simp) (by simp) ?_
    · rw [mkItems, List.length_map]
      exact Nat.min_le_right _ _
    · simpa using hlen
  · intro q hq
    rcases goSample_mem (mkItems W pool) (min 30 pool.length) draws [] q hq with h | h
    · simp at h
    · obtain ⟨it, hit, rfl⟩ := h
      have : it.q ∈ (mkItems W pool).map (fun it => it.q) := List.mem_map.2 ⟨it, hit, rfl⟩
      rwa [mkItems_map_q] at this
  · exact goSample_nodup (mkItems W pool) (min 30 pool.length) draws [] (by simp)

/-- Claim C3 (witness). -/
theorem weightedSample_spec_witness :
    (weightedSample [] [demoQ1, demoQ2, demoQ3] 30 [0, 0, 0]).length
      = min 30 ([demoQ1, demoQ2, demoQ3] : List Question).length ∧
    (∀ q ∈ weightedSample [] [demoQ1, demoQ2, demoQ3] 30 [0, 0, 0],
      q ∈ ([demoQ1, demoQ2, demoQ3] : List Question)) ∧
    (weightedSample [] [demoQ1, demoQ2, demoQ3] 30 [0, 0, 0]).Nodup :=
  weightedSample_spec [] [demoQ1, demoQ2, demoQ3] [0, 0, 0]
    (by decide) (by decide) (by decide)

/-- Claim C8.  At each selection step, for any draw r inside the weight band
of the k-th not-yet-selected item, the accumulating walk selects exactly
that item; the band of an item starts at the cumulative weight of the
not-yet-selected items before it and has length equal to the item's current
weight, and no other band contains r. -/
theorem selectStep_band (items : List WItem) (used : List Question) (r : ℚ)
    (k : Nat) (hk : k < (unselected items used).length)
    (hlo : (cumW (unselected items used) k : ℚ) ≤ r)
    (hhi : r < (cumW (unselected items used) (k + 1) : ℚ)) :
    selectStep r used items = some ((unselected items used).get ⟨k, hk⟩).q ∧
    cumW (unselected items used) (k + 1)
      = cumW (unselected items used) k + ((unselected items used).get ⟨k, hk⟩).w ∧
    (∀ j, (cumW (unselected items used) j : ℚ) ≤ r →
      r < (cumW (unselected items used) (j + 1) : ℚ) → j = k) := by
  refine ⟨?_, cumW_succ_of_lt _ k hk, ?_⟩
  · refine selectStep_band_aux items used r k _ ?_ hlo hhi
    rw [List.getElem?_eq_getElem hk]
    simp [List.get_eq_getElem]
  · intro j hj1 hj2
    exact bands_unique (unselected items used) r j k hj1 hj2 hlo hhi

/-- Claim C8 (witness).  With bands [0, 2) and [2, 5), the draw 3 falls in
the second band and the walk selects the second item. -/
theorem selectStep_band_witness :
    selectStep 3 [] demoItems
      = some ((unselected demoItems []).get ⟨1, by decide⟩).q ∧
    cumW (unselected demoItems []) 2
      = cumW (unselected demoItems []) 1 + ((unselected demoItems []).get ⟨1, by decide⟩).w ∧
    (∀ j, (cumW (unselected demoItems []) j : ℚ) ≤ 3 →
      (3 : ℚ) < (cumW (unselected demoItems []) (j + 1) : ℚ) → j = 1) :=
  selectStep_band demoItems [] 3 1 (by decide)
    (by norm_num [cumW, unselected, demoItems])
    (by norm_num [cumW, unselected, demoItems])

/-- Claim C10.  The sampling loop is total and its iteration count is
bounded by min 30 (pool size): with a valid random stream the result only
depends on the first min 30 (pool size) draws (one draw is consumed per
iteration, and each iteration selects exactly one item or exits), and every
per-item sampling weight is at least 1, which keeps the unselected total
positive while unselected items remain. -/
theorem weightedSample_bounded_iterations (W : WeightTable) (pool : List Question)
    (count : Nat) (draws : List ℚ) (hv : validDraws draws) :
    weightedSample W pool count draws
      = weightedSample W pool count (draws.take (min count pool.length)) ∧
    ∀ q : Question, 1 ≤ sampleWeight W q := by
  constructor
  · have h := goSample_take (mkItems W pool) (min count pool.length) draws [] hv
    simpa [weightedSample] using h
  · exact one_le_sampleWeight W

/-- Claim C10 (witness). -/
theorem weightedSample_bounded_iterations_witness :
    weightedSample [] [demoQ1, demoQ2] 30 [0, 0, 0]
      = weightedSample [] [demoQ1, demoQ2] 30
          (([0, 0, 0] : List ℚ).take (min 30 ([demoQ1, demoQ2] : List Question).length)) ∧
    ∀ q : Question, 1 ≤ sampleWeight [] q :=
  weightedSample_bounded_iterations [] [demoQ1, demoQ2] 30 [0, 0, 0] (by decide)

end FlashNeiga
